import Mathlib

/-!
# Verification of the obsidian-latex-suite concealment engine

Shallow embedding of the concealment engine of `bdm-k/obsidian-latex-suite`:

* the data model (`Replacement`, `ConcealSpec`, `Concealment`, `ConcealState`)
  from `src/editor_extensions/conceal.ts`;
* the cursor classifier `determineCursorPosType` and the reveal/conceal
  decision function `determineAction` from `src/editor_extensions/conceal.ts`;
* the identity matcher `atSamePosAfter` from `src/editor_extensions/conceal.ts`;
* the reconciliation / delayed-reveal timer logic of the
  `concealStateField` update listener, as a small-step system (`stepReconcile`
  / `stepFire`);
* the scanner matchers (`concealFraction`, `concealBraKet`, `concealSet`,
  `concealSymbols`, `concealOperators`, `getEndIncludingLimits`) from
  `conceal_fns.ts`, together with `findMatchingBracket` from
  `utils/editor_utils.ts`.

Text is modelled as `List Char`; document positions are `Nat`; JavaScript's
`-1` failure results become `Option`.
-/

namespace LatexSuite

/-- One atomic substitution, `ConcealSpec`'s leaf object in `conceal.ts`
(`start`, `end`, `replacement`, optional `class`, optional `elementType`).
`end` and `class` are Lean keywords, hence the primed / renamed fields. -/
structure Replacement where
  start : Nat
  end' : Nat
  replacement : String
  cls : Option String := none
  elementType : Option String := none
deriving DecidableEq, Repr

/-- Type `ConcealSpec` from `conceal.ts`: either a single replacement object or an
array of `ConcealSpec` (the source type requires the array to be non-empty;
every value the scanner builds is a flat array of single replacements). -/
inductive ConcealSpec where
  | single (r : Replacement)
  | group (l : List ConcealSpec)
deriving Repr

/-- Values `within` / `apart` / `edge` of the `cursorPosType` field of `conceal.ts`. -/
inductive CursorPosType where
  | within
  | apart
  | edge
deriving DecidableEq, Repr, Fintype

/-- The `ConcealAction` type of `conceal.ts`; `delay` means reveal after a
time delay. -/
inductive ConcealAction where
  | conceal
  | reveal
  | delay
deriving DecidableEq, Repr, Fintype

/-- The flattening performed by `iterConcealSpec` in `conceal.ts`: visit the
single replacement objects of a spec in depth-first order. -/
def ConcealSpec.replacements : ConcealSpec → List Replacement
  | .single r => [r]
  | .group l => go l
where
  go : List ConcealSpec → List Replacement
  | [] => []
  | s :: rest => s.replacements ++ go rest

/-- One range of the editor selection (`range.from` / `range.to`;
`from` is a Lean keyword, hence the primed fields). -/
structure SelRange where
  from' : Nat
  to' : Nat
deriving DecidableEq, Repr

/-- Function `determineAction` from `conceal.ts` (lines 201-214): decide how to handle
a concealment from its previous and current `cursorPosType` and the mouse
state.  `oldCursor = none` is the `N/A` row of the comment's table (the
concealment did not exist before the update). -/
def determineAction (oldCursor : Option CursorPosType) (newCursor : CursorPosType)
    (mousedown : Bool) : ConcealAction :=
  if mousedown then .conceal
  else if newCursor = .apart then .conceal
  else if newCursor = .within then .reveal
  -- newCursor = edge
  else if oldCursor = none ∨ oldCursor = some .within then .reveal
  else .delay

/-! ## Cursor classifier (`determineCursorPosType`, conceal.ts lines 144-178) -/

/-- Computes `Math.max(range.from, singleSpec.start)`. -/
def overlapFrom (r : SelRange) (s : Replacement) : Nat := max r.from' s.start

/-- Computes `Math.min(range.to, singleSpec.end)`. -/
def overlapTo (r : SelRange) (s : Replacement) : Nat := min r.to' s.end'

/-- The classification one `(range, singleSpec)` comparison produces in the
body of the `iterConcealSpec` callback of `determineCursorPosType`: the
single-touching-point-at-a-boundary test comes first (`edge`), then the
`overlapRangeFrom <= overlapRangeTo` test (`within`), else no overlap. -/
def candPos (r : SelRange) (s : Replacement) : CursorPosType :=
  if overlapFrom r s = overlapTo r s ∧
      (overlapFrom r s = s.start ∨ overlapFrom r s = s.end') then .edge
  else if overlapFrom r s ≤ overlapTo r s then .within
  else .apart

/-- The inner `iterConcealSpec` loop of `determineCursorPosType` over the
flattened replacements for one selection range: `edge` overwrites the
accumulator and keeps scanning, `within` stops the iteration. -/
def scanReps (r : SelRange) : List Replacement → CursorPosType → CursorPosType
  | [], acc => acc
  | s :: rest, acc =>
    match candPos r s with
    | .edge => scanReps r rest .edge
    | .within => .within
    | .apart => scanReps r rest acc

/-- The outer `for (const range of sel.ranges)` loop of
`determineCursorPosType`: return `within` as soon as one range produces it. -/
def scanRanges (reps : List Replacement) : List SelRange → CursorPosType → CursorPosType
  | [], acc => acc
  | r :: rest, acc =>
    match scanReps r reps acc with
    | .within => .within
    | acc' => scanRanges reps rest acc'

/-- Function `determineCursorPosType` from `conceal.ts` (lines 144-178); the selection
is its list of ranges.  Priority: `within` > `edge` > `apart`. -/
def determineCursorPosType (sel : List SelRange) (spec : ConcealSpec) : CursorPosType :=
  scanRanges spec.replacements sel .apart

/-! ## Identity matching across an update (`atSamePosAfter`, conceal.ts 113-142) -/

/-- The position-translation function of the host's change set
(`update.changes.mapPos(pos, assoc)`), supplied externally on each edit; the
second argument is the stickiness bias (`1` right, `-1` left). -/
structure Changes where
  mapPos : Nat → Int → Nat

mutual

/-- Function `atSamePosAfter` from `conceal.ts` (lines 113-142): the old and new spec
are the same logical concealment when they have the same shape and the old
boundaries, mapped through the update (start sticking right, end sticking
left), equal the new boundaries exactly. -/
def atSamePosAfter (u : Changes) : ConcealSpec → ConcealSpec → Bool
  | .single o, .single n =>
      u.mapPos o.start 1 == n.start && u.mapPos o.end' (-1) == n.end'
  | .group os, .group ns =>
      -- Make sure the lengths are the same, then compare componentwise
      os.length == ns.length && atSamePosAfterList u os ns
  | _, _ => false

/-- The `for` loop of `atSamePosAfter` over the members of two groups. -/
def atSamePosAfterList (u : Changes) : List ConcealSpec → List ConcealSpec → Bool
  | [], [] => true
  | o :: os, n :: ns => atSamePosAfter u o n && atSamePosAfterList u os ns
  | _, _ => false

end

/-! ## Reconciliation and the delayed-reveal timer
(the `concealStateField` update listener, conceal.ts lines 259-360) -/

/-- Type `Concealment` from `conceal.ts`: a spec tagged with its computed
`cursorPosType` and the `enable` flag. -/
structure Concealment where
  spec : ConcealSpec
  cursorPosType : CursorPosType
  enable : Bool
deriving Repr

/-- Type `ConcealState` from `conceal.ts`: the current concealments plus the
handle of the at-most-one pending delayed-reveal timer (timer handles are
modelled as `Nat` ids). -/
structure ConcealState where
  concealments : List Concealment
  revealTimeout : Option Nat := none
deriving Repr

/-- The body of the `for (const container of concealSpecList)` loop of the
update listener (conceal.ts lines 314-337): classify the spec against the new
selection, look up the previous classification through `atSamePosAfter`,
decide the action, and build the `Concealment` with
`enable = (action != reveal)`. -/
def concealmentFor (u : Changes) (oldCs : List Concealment) (sel : List SelRange)
    (mousedown : Bool) (spec : ConcealSpec) : Concealment × ConcealAction :=
  let cursorPosType := determineCursorPosType sel spec
  let oldConceal := oldCs.find? fun old => atSamePosAfter u old.spec spec
  let action := determineAction (oldConceal.map (·.cursorPosType)) cursorPosType mousedown
  (⟨spec, cursorPosType, action != .reveal⟩, action)

/-- Positions (in the new concealment list) of the candidates whose action was
`delay` — the `delayedConcealments` collected by the update listener,
identified by index since the source shares object references. -/
def delayedIndices : Nat → List ConcealAction → List Nat
  | _, [] => []
  | i, a :: rest =>
    if a = .delay then i :: delayedIndices (i + 1) rest else delayedIndices (i + 1) rest

/-- A scheduled delayed-reveal timer: the concealment list and the delayed
subset (as indices) captured when `setTimeout` was called
(conceal.ts lines 341-350). -/
structure Timer where
  concealments : List Concealment
  delayed : List Nat
deriving Repr

/-- The effect of the timer callback (conceal.ts lines 342-349): flip
`enable` to `false` for every captured delayed concealment, leaving the
others untouched.  `k` is the index of the head of `cs`. -/
def fireDisable (delayed : List Nat) : Nat → List Concealment → List Concealment
  | _, [] => []
  | k, c :: rest =>
    (if k ∈ delayed then { c with enable := false } else c) :: fireDisable delayed (k + 1) rest

/-- The whole per-editor-view system: the `concealStateField` value, the set
of scheduled-and-not-yet-cancelled-or-fired timers (with their captured
payloads), and a counter supplying fresh timer handles. -/
structure World where
  field : ConcealState
  timers : List (Nat × Timer)
  nextId : Nat
deriving Repr

/-- Cancellation step of the update listener (conceal.ts lines 302-305): if
the old state holds a pending timer handle, `clearTimeout` removes that
timer from the scheduled set. -/
def cancelPending (w : World) : List (Nat × Timer) :=
  match w.field.revealTimeout with
  | some tid => w.timers.filter fun p => p.1 != tid
  | none => w.timers

/-- The per-candidate results of one reconciliation: the concealment and the
action, for every spec the scanner returned. -/
def reconResults (w : World) (u : Changes) (sel : List SelRange) (mousedown : Bool)
    (specs : List ConcealSpec) : List (Concealment × ConcealAction) :=
  specs.map (concealmentFor u w.field.concealments sel mousedown)

/-- One run of the update listener (conceal.ts lines 291-358): cancel the
pending delayed revealment (`clearTimeout`) whenever the concealments are
updated, rebuild the concealment list from the scanner's specs, and install a
fresh timer only when some candidate's action was `delay`. -/
def stepReconcile (w : World) (u : Changes) (sel : List SelRange) (mousedown : Bool)
    (specs : List ConcealSpec) : World :=
  let results := reconResults w u sel mousedown specs
  let concealments := results.map Prod.fst
  let delayed := delayedIndices 0 (results.map Prod.snd)
  if delayed.isEmpty then
    ⟨⟨concealments, none⟩, cancelPending w, w.nextId⟩
  else
    ⟨⟨concealments, some w.nextId⟩,
      cancelPending w ++ [(w.nextId, ⟨concealments, delayed⟩)], w.nextId + 1⟩

/-- Delivery of a timer callback: a cancelled (or already fired) handle does
nothing; a live timer disables its captured delayed concealments and
publishes them as the new state (the dispatched state carries no
`revealTimeout`). -/
def stepFire (w : World) (tid : Nat) : World :=
  match w.timers.find? (fun p => p.1 == tid) with
  | none => w
  | some (_, t) =>
    ⟨⟨fireDisable t.delayed 0 t.concealments, none⟩,
      w.timers.filter (fun p => p.1 != tid), w.nextId⟩

/-- System invariant: every scheduled timer handle, and the handle recorded in
the state field, is below the fresh-handle counter.  It holds for the empty
initial world and is preserved by `stepReconcile` and `stepFire`. -/
def worldInv (w : World) : Bool :=
  w.timers.all (fun p => p.1 < w.nextId) &&
    (match w.field.revealTimeout with
     | some tid => tid < w.nextId
     | none => true)

/-! ## Bracket matching (`findMatchingBracket`, utils/editor_utils.ts) -/

/-- The forward scan loop of `findMatchingBracket`: at each position test for
the opening token first (nesting depth up), then the closing token (depth
down, and return the position where the depth returns to zero).  The list
argument is the suffix of the text starting at position `i`; the depth
counter is an integer, as in the source. -/
def fmbGo (openB closeB : List Char) : List Char → Nat → Int → Option Nat
  | [], _, _ => none
  | l@(_ :: rest), i, brackets =>
    if openB.isPrefixOf l then fmbGo openB closeB rest (i + 1) (brackets + 1)
    else if closeB.isPrefixOf l then
      if brackets - 1 = 0 then some i
      else fmbGo openB closeB rest (i + 1) (brackets - 1)
    else fmbGo openB closeB rest (i + 1) brackets

/-- Function `findMatchingBracket` from `utils/editor_utils.ts` in the form the
scanner uses it (forwards, no explicit end): scan from `start` and return the
index of the matching closing token, or `none` (the source returns `-1`). -/
def findMatchingBracket (text : List Char) (start : Nat) (openB closeB : List Char) :
    Option Nat :=
  fmbGo openB closeB (text.drop start) start 0

/-! ## Scanner matchers (`conceal_fns.ts`)

The JavaScript matchers drive `String.matchAll` with global regexes; every
pattern involved is a literal or an ordered alternation of literals, so the
scans are embedded directly: positions are tried left to right and a match
advances the scan past the full matched text, exactly as `matchAll` advances
`lastIndex`.  Each scan carries a fuel argument (callers pass
`eqn.length + 1`, enough for the whole text, since every step advances the
position by at least one). -/

/-- Occurrences (start indices) of the literal pattern `pat` in `eqn`,
scanning from position `i`, as `matchAll` enumerates them: after a match the
scan resumes past the matched text. -/
def matchAllLitGo (pat eqn : List Char) : Nat → Nat → List Nat
  | 0, _ => []
  | fuel + 1, i =>
    if pat.isPrefixOf (eqn.drop i) then i :: matchAllLitGo pat eqn fuel (i + pat.length)
    else if i < eqn.length then matchAllLitGo pat eqn fuel (i + 1)
    else []

/-- All `matchAll` occurrences of the literal pattern `pat` in `eqn`. -/
def matchAllLit (pat eqn : List Char) : List Nat :=
  matchAllLitGo pat eqn (eqn.length + 1) 0

/-- Function `getEndIncludingLimits` from `conceal_fns.ts` (lines 29-35): the
updated end index of a conceal match, extended to swallow a directly
following literal `\limits`. -/
def getEndIncludingLimits (eqn : List Char) (e : Nat) : Nat :=
  if "\\limits".data.isPrefixOf (eqn.drop e) then e + "\\limits".data.length else e

/-- ASCII letter test, the character class `[a-zA-Z]` of `conceal_fns.ts`. -/
def isAsciiLetter (c : Char) : Bool :=
  ('a' ≤ c && c ≤ 'z') || ('A' ≤ c && c ≤ 'Z')

/-- Whether the character of `eqn` at position `j` is an ASCII letter
(`eqn.charAt(j).match(/[a-zA-Z]/)`; out of range, `charAt` yields the empty
string, which does not match). -/
def letterAt (eqn : List Char) (j : Nat) : Bool :=
  match eqn.get? j with
  | some c => isAsciiLetter c
  | none => false

/-- The spec `concealFraction` builds for the match at index `i` (its regex is
the literal `\frac{`, so `match[0].length = 6`): find the numerator's closing
bracket, require the denominator to open immediately after it, find the
denominator's closing bracket, and emit the six replacements that render
`\frac{a}{b}` as `(a)/(b)`.  Any failure skips the candidate (`continue`). -/
def fracSpecAt (eqn : List Char) (i : Nat) : Option ConcealSpec :=
  match findMatchingBracket eqn i ['\x7b'] ['\x7d'] with
  | none => none
  | some numeratorEnd =>
    -- Expect there are no spaces between the closing bracket of the numerator
    -- and the opening bracket of the denominator
    if eqn.get? (numeratorEnd + 1) ≠ some '\x7b' then none
    else
      match findMatchingBracket eqn (numeratorEnd + 1) ['\x7b'] ['\x7d'] with
      | none => none
      | some denominatorEnd =>
        let commandStart := i
        let numeratorStart := i + 5
        let denominatorStart := numeratorEnd + 1
        some (.group [
          -- Hide "\frac"
          .single ⟨commandStart, numeratorStart, "", none, none⟩,
          -- Replace brackets of the numerator
          .single ⟨numeratorStart, numeratorStart + 1, "(", some "cm-bracket", none⟩,
          .single ⟨numeratorEnd, numeratorEnd + 1, ")", some "cm-bracket", none⟩,
          -- Add a slash
          .single ⟨numeratorEnd + 1, numeratorEnd + 1, "/", some "cm-bracket", none⟩,
          -- Replace brackets of the denominator
          .single ⟨denominatorStart, denominatorStart + 1, "(", some "cm-bracket", none⟩,
          .single ⟨denominatorEnd, denominatorEnd + 1, ")", some "cm-bracket", none⟩])

/-- Function `concealFraction` from `conceal_fns.ts` (lines 342-378). -/
def concealFraction (eqn : List Char) : List ConcealSpec :=
  (matchAllLit "\\frac\x7b".data eqn).filterMap (fracSpecAt eqn)

/-- The spec `concealBraKet` builds for a match of `\braket{` / `\bra{` /
`\ket{` at index `i` with `match[0].length = len`: find the matching closing
bracket and emit the three replacements (hidden command, left and right
delimiters).  No closing bracket, no spec. -/
def braKetSpecAt (eqn : List Char) (i : Nat) (ty : String) (len : Nat) : Option ConcealSpec :=
  match findMatchingBracket eqn i ['\x7b'] ['\x7d'] with
  | none => none
  | some contentEnd =>
    let commandStart := i
    let contentStart := i + len - 1
    let left := if ty = "ket" then "|" else "〈"
    let right := if ty = "bra" then "|" else "〉"
    some (.group [
      -- Hide the command
      .single ⟨commandStart, contentStart, "", none, none⟩,
      -- Replace the opening bracket
      .single ⟨contentStart, contentStart + 1, left, some "cm-bracket", none⟩,
      -- Replace the closing bracket
      .single ⟨contentEnd, contentEnd + 1, right, some "cm-bracket", none⟩])

/-- The scan loop of `concealBraKet`: the regex alternation
`\\(braket|bra|ket){` tries the alternatives in this order at each position
(so `braket` wins over its prefix `bra`), and a match advances the scan past
the whole matched text. -/
def concealBraKetGo (eqn : List Char) : Nat → Nat → List ConcealSpec
  | 0, _ => []
  | fuel + 1, i =>
    if "\\braket\x7b".data.isPrefixOf (eqn.drop i) then
      (braKetSpecAt eqn i "braket" 8).toList ++ concealBraKetGo eqn fuel (i + 8)
    else if "\\bra\x7b".data.isPrefixOf (eqn.drop i) then
      (braKetSpecAt eqn i "bra" 5).toList ++ concealBraKetGo eqn fuel (i + 5)
    else if "\\ket\x7b".data.isPrefixOf (eqn.drop i) then
      (braKetSpecAt eqn i "ket" 5).toList ++ concealBraKetGo eqn fuel (i + 5)
    else if i < eqn.length then concealBraKetGo eqn fuel (i + 1)
    else []

/-- Function `concealBraKet` from `conceal_fns.ts` (lines 282-314). -/
def concealBraKet (eqn : List Char) : List ConcealSpec :=
  concealBraKetGo eqn (eqn.length + 1) 0

/-- The spec `concealSet` builds for a match of the literal `\set{` at index
`i` (`match[0].length = 5`). -/
def setSpecAt (eqn : List Char) (i : Nat) : Option ConcealSpec :=
  match findMatchingBracket eqn i ['\x7b'] ['\x7d'] with
  | none => none
  | some contentEnd =>
    let commandStart := i
    let contentStart := i + 4
    some (.group [
      -- Hide "\set"
      .single ⟨commandStart, contentStart, "", none, none⟩,
      -- Replace the opening bracket
      .single ⟨contentStart, contentStart + 1, "\x7b", some "cm-bracket", none⟩,
      -- Replace the closing bracket
      .single ⟨contentEnd, contentEnd + 1, "\x7d", some "cm-bracket", none⟩])

/-- Function `concealSet` from `conceal_fns.ts` (lines 316-340). -/
def concealSet (eqn : List Char) : List ConcealSpec :=
  (matchAllLit "\\set\x7b".data eqn).filterMap (setSpecAt eqn)

/-- The match `concealSymbols` finds at position `i`: its regex is
`prefix(k1|k2|...)` (the suffix argument is always the empty string at every
call site), so a match is the literal prefix followed by the first symbol-map
key that fits; the result is that key together with its mapped value. -/
def symMatchAt (pfx : List Char) (symbols : List (String × String)) (eqn : List Char)
    (i : Nat) : Option (String × String) :=
  if pfx.isPrefixOf (eqn.drop i) then
    symbols.findSome? fun kv =>
      if kv.1.data.isPrefixOf (eqn.drop (i + pfx.length)) then some kv else none
  else none

/-- The scan loop of `concealSymbols` (conceal_fns.ts lines 38-69): on a
match, unless the no-succeeding-letter guard rejects it, emit a single
replacement whose end is extended by `getEndIncludingLimits`, and continue
past the matched text. -/
def concealSymbolsGo (pfx : List Char) (symbols : List (String × String))
    (cls : Option String) (allowSucceedingLetters : Bool) (eqn : List Char) :
    Nat → Nat → List ConcealSpec
  | 0, _ => []
  | fuel + 1, i =>
    match symMatchAt pfx symbols eqn i with
    | some (k, v) =>
      -- the match ends at i + pfx.length + k.data.length
      if !allowSucceedingLetters && letterAt eqn (i + pfx.length + k.data.length) then
        -- If the symbol match is succeeded by a letter, do not conceal
        concealSymbolsGo pfx symbols cls allowSucceedingLetters eqn fuel
          (i + pfx.length + k.data.length)
      else
        .single ⟨i, getEndIncludingLimits eqn (i + pfx.length + k.data.length), v, cls, none⟩ ::
          concealSymbolsGo pfx symbols cls allowSucceedingLetters eqn fuel
            (i + pfx.length + k.data.length)
    | none =>
      if i < eqn.length then
        concealSymbolsGo pfx symbols cls allowSucceedingLetters eqn fuel (i + 1)
      else []

/-- Function `concealSymbols` from `conceal_fns.ts` (lines 38-69), with the
symbol map as an ordered association list (the regex alternation follows the
key order of the map object). -/
def concealSymbols (eqn pfx : List Char) (symbols : List (String × String))
    (cls : Option String := none) (allowSucceedingLetters : Bool := true) :
    List ConcealSpec :=
  concealSymbolsGo pfx symbols cls allowSucceedingLetters eqn (eqn.length + 1) 0

/-- The match `concealOperators` finds at position `i`: its regex is
`(\\(s1|s2|...))([^a-zA-Z]|$)`, a backslash, then the first alternative
symbol fitting at that point such that the rest of the regex also matches —
a non-letter character (consumed by the match) or the end of the text.  The
result is the symbol and whether a suffix character was consumed. -/
def opMatchAt (symbols : List String) (eqn : List Char) (i : Nat) :
    Option (String × Bool) :=
  if eqn.get? i = some '\\' then
    symbols.findSome? fun s =>
      if s.data.isPrefixOf (eqn.drop (i + 1)) then
        match eqn.get? (i + 1 + s.data.length) with
        | some c => if isAsciiLetter c then none else some (s, true)
        | none => some (s, false)
      else none
  else none

/-- The scan loop of `concealOperators` (conceal_fns.ts lines 236-257): the
replacement keeps the operator name (`match[2]`), its span starts at the
match and ends at `getEndIncludingLimits` of the operator's end
(`start + match[1].length`); the scan continues past the full match. -/
def concealOperatorsGo (symbols : List String) (eqn : List Char) :
    Nat → Nat → List ConcealSpec
  | 0, _ => []
  | fuel + 1, i =>
    match opMatchAt symbols eqn i with
    | some (s, consumed) =>
      .single ⟨i, getEndIncludingLimits eqn (i + 1 + s.data.length), s,
          some "cm-concealed-mathrm cm-variable-2", none⟩ ::
        concealOperatorsGo symbols eqn fuel
          (i + 1 + s.data.length + (if consumed then 1 else 0))
    | none =>
      if i < eqn.length then concealOperatorsGo symbols eqn fuel (i + 1)
      else []

/-- Function `concealOperators` from `conceal_fns.ts` (lines 236-257). -/
def concealOperators (eqn : List Char) (symbols : List String) : List ConcealSpec :=
  concealOperatorsGo symbols eqn (eqn.length + 1) 0

/-! ## Rendering and well-formedness -/

/-- The text produced when the replacements of a spec are painted over the
source (the §6 output contract: each `[start, end)` is replaced by its
replacement text; a `start = end` replacement is a pure insertion).  `pos` is
the cursor into the source text; assumes the replacements are sorted. -/
def renderReps (text : List Char) : Nat → List Replacement → List Char
  | pos, [] => text.drop pos
  | pos, r :: rest =>
    (text.drop pos).take (r.start - pos) ++ r.replacement.data ++ renderReps text r.end' rest

/-- Rendered form of a whole spec over the source text. -/
def renderSpec (text : List Char) (spec : ConcealSpec) : List Char :=
  renderReps text 0 spec.replacements

/-- Well-formedness of a spec's member replacements: each spans a valid
half-open interval (`start ≤ end`), and consecutive members do not overlap
and appear sorted by `start` (each ends no later than the next begins). -/
def okSpec (spec : ConcealSpec) : Prop :=
  spec.replacements.Chain' (fun a b => a.end' ≤ b.start) ∧
    ∀ r ∈ spec.replacements, r.start ≤ r.end'

/-- Flat shape: a single replacement, or a group whose members are all
single replacements — the only shapes the scanner ever produces. -/
def ConcealSpec.isFlat : ConcealSpec → Bool
  | .single _ => true
  | .group l =>
    l.all fun c =>
      match c with
      | .single _ => true
      | .group _ => false

/-- Same group shape in the sense of the spec's identity-matching rule: both
sides are single, or both are groups with equally many members. -/
def sameShapeFlat (o n : ConcealSpec) : Prop :=
  (∃ a b, o = .single a ∧ n = .single b) ∨
    (∃ lo ln, o = .group lo ∧ n = .group ln ∧ lo.length = ln.length)

/-- Boundary correspondence of an old and a new replacement under an update:
the old start mapped with rightward bias equals the new start, and the old
end mapped with leftward bias equals the new end, exactly. -/
def mappedEq (u : Changes) (a b : Replacement) : Prop :=
  u.mapPos a.start 1 = b.start ∧ u.mapPos a.end' (-1) = b.end'

/-! ## Concrete example data (used by witnesses) -/

/-- Identity position translation (an update that changes nothing). -/
def uId : Changes := ⟨fun p _ => p⟩

/-- A single-replacement spec spanning positions 0 to 2. -/
def spec0ex : ConcealSpec := .single ⟨0, 2, "x", none, none⟩

/-- A world holding one apart-classified concealment and no timer. -/
def w0ex : World := ⟨⟨[⟨spec0ex, .apart, true⟩], none⟩, [], 0⟩

/-- The world after one reconciliation of `w0ex` with the cursor touching the
concealment's start boundary: the action is `delay`, so timer 0 is
installed. -/
def w1ex : World := stepReconcile w0ex uId [⟨0, 0⟩] false [spec0ex]

/-- The world after a second identical reconciliation: timer 0 is cancelled
and timer 1 installed. -/
def w2ex : World := stepReconcile w1ex uId [⟨0, 0⟩] false [spec0ex]

/-- The timer payload captured by the second reconciliation. -/
def timer1ex : Timer := ⟨[⟨spec0ex, .edge, true⟩], [0]⟩

/-- The spec the fraction matcher emits for the equation text `\frac{a}{b}`. -/
def fracSpecEx : ConcealSpec := .group [
  .single ⟨0, 5, "", none, none⟩,
  .single ⟨5, 6, "(", some "cm-bracket", none⟩,
  .single ⟨7, 8, ")", some "cm-bracket", none⟩,
  .single ⟨8, 8, "/", some "cm-bracket", none⟩,
  .single ⟨8, 9, "(", some "cm-bracket", none⟩,
  .single ⟨10, 11, ")", some "cm-bracket", none⟩]

/-- The spec the fraction matcher emits for the inner fraction of the
equation text `\frac{a\frac{b}{c}` (whose outer fraction is unterminated). -/
def fracInnerEx : ConcealSpec := .group [
  .single ⟨7, 12, "", none, none⟩,
  .single ⟨12, 13, "(", some "cm-bracket", none⟩,
  .single ⟨14, 15, ")", some "cm-bracket", none⟩,
  .single ⟨15, 15, "/", some "cm-bracket", none⟩,
  .single ⟨15, 16, "(", some "cm-bracket", none⟩,
  .single ⟨17, 18, ")", some "cm-bracket", none⟩]

/-- The spec the operator matcher emits for `\lim\limits_x` with the symbol
table `["lim"]`: the concealed span swallows the trailing `\limits`. -/
def opSpecEx : ConcealSpec :=
  .single ⟨0, 11, "lim", some "cm-concealed-mathrm cm-variable-2", none⟩

/-! ## Characterization of the cursor classifier -/

lemma candPos_eq_within (r : SelRange) (s : Replacement) :
    candPos r s = .within ↔
      (overlapFrom r s < overlapTo r s ∨
        (overlapFrom r s = overlapTo r s ∧
          overlapFrom r s ≠ s.start ∧ overlapFrom r s ≠ s.end')) := by
  unfold candPos
  split_ifs with h1 h2 <;> simp <;> omega

lemma candPos_eq_edge (r : SelRange) (s : Replacement) :
    candPos r s = .edge ↔
      (overlapFrom r s = overlapTo r s ∧
        (overlapFrom r s = s.start ∨ overlapFrom r s = s.end')) := by
  unfold candPos
  split_ifs with h1 h2 <;> simp <;> omega

lemma candPos_eq_apart (r : SelRange) (s : Replacement) :
    candPos r s = .apart ↔ overlapTo r s < overlapFrom r s := by
  unfold candPos
  split_ifs with h1 h2 <;> simp <;> omega

lemma scanReps_eq_within (r : SelRange) (reps : List Replacement) (acc : CursorPosType)
    (h : acc ≠ .within) :
    scanReps r reps acc = .within ↔ ∃ s ∈ reps, candPos r s = .within := by
  induction reps generalizing acc with
  | nil => simpa [scanReps] using h
  | cons s rest ih =>
    simp only [scanReps]
    cases hc : candPos r s with
    | within => exact iff_of_true rfl ⟨s, List.mem_cons_self s rest, hc⟩
    | edge =>
      rw [ih .edge (by simp)]
      simp [List.mem_cons, hc]
    | apart =>
      rw [ih acc h]
      simp [List.mem_cons, hc]

lemma scanReps_eq_edge (r : SelRange) (reps : List Replacement) (acc : CursorPosType)
    (h : acc ≠ .within) :
    scanReps r reps acc = .edge ↔
      ((¬ ∃ s ∈ reps, candPos r s = .within) ∧
        (acc = .edge ∨ ∃ s ∈ reps, candPos r s = .edge)) := by
  induction reps generalizing acc with
  | nil => simp [scanReps]
  | cons s rest ih =>
    simp only [scanReps]
    cases hc : candPos r s with
    | within =>
      refine iff_of_false (by simp) ?_
      rintro ⟨hno, -⟩
      exact hno ⟨s, List.mem_cons_self s rest, hc⟩
    | edge =>
      rw [ih .edge (by simp)]
      simp only [List.mem_cons]
      constructor
      · rintro ⟨hno, -⟩
        refine ⟨?_, Or.inr ⟨s, Or.inl rfl, hc⟩⟩
        rintro ⟨x, hx | hx, hw⟩
        · rw [hx, hc] at hw; cases hw
        · exact hno ⟨x, hx, hw⟩
      · rintro ⟨hno, -⟩
        refine ⟨?_, Or.inl trivial⟩
        rintro ⟨x, hx, hw⟩
        exact hno ⟨x, Or.inr hx, hw⟩
    | apart =>
      rw [ih acc h]
      simp only [List.mem_cons]
      constructor
      · rintro ⟨hno, hacc⟩
        refine ⟨?_, ?_⟩
        · rintro ⟨x, hx | hx, hw⟩
          · rw [hx, hc] at hw; cases hw
          · exact hno ⟨x, hx, hw⟩
        · rcases hacc with hacc | ⟨x, hx, hw⟩
          · exact Or.inl hacc
          · exact Or.inr ⟨x, Or.inr hx, hw⟩
      · rintro ⟨hno, hacc⟩
        refine ⟨fun ⟨x, hx, hw⟩ => hno ⟨x, Or.inr hx, hw⟩, ?_⟩
        rcases hacc with hacc | ⟨x, hx | hx, hw⟩
        · exact Or.inl hacc
        · rw [hx, hc] at hw; cases hw
        · exact Or.inr ⟨x, hx, hw⟩

lemma scanRanges_eq_within (reps : List Replacement) (sel : List SelRange)
    (acc : CursorPosType) (h : acc ≠ .within) :
    scanRanges reps sel acc = .within ↔
      ∃ r ∈ sel, ∃ s ∈ reps, candPos r s = .within := by
  induction sel generalizing acc with
  | nil => simpa [scanRanges] using h
  | cons r rest ih =>
    simp only [scanRanges]
    cases hsr : scanReps r reps acc with
    | within =>
      refine iff_of_true rfl ⟨r, List.mem_cons_self r rest, ?_⟩
      exact (scanReps_eq_within r reps acc h).mp hsr
    | edge =>
      have hno : ¬ ∃ s ∈ reps, candPos r s = .within := by
        intro hw
        rw [← scanReps_eq_within r reps acc h] at hw
        rw [hsr] at hw; cases hw
      rw [ih .edge (by simp)]
      simp only [List.mem_cons]
      constructor
      · rintro ⟨x, hx, hw⟩
        exact ⟨x, Or.inr hx, hw⟩
      · rintro ⟨x, hx | hx, hw⟩
        · rw [hx] at hw; exact absurd hw hno
        · exact ⟨x, hx, hw⟩
    | apart =>
      have hno : ¬ ∃ s ∈ reps, candPos r s = .within := by
        intro hw
        rw [← scanReps_eq_within r reps acc h] at hw
        rw [hsr] at hw; cases hw
      rw [ih .apart (by simp)]
      simp only [List.mem_cons]
      constructor
      · rintro ⟨x, hx, hw⟩
        exact ⟨x, Or.inr hx, hw⟩
      · rintro ⟨x, hx | hx, hw⟩
        · rw [hx] at hw; exact absurd hw hno
        · exact ⟨x, hx, hw⟩

lemma scanRanges_eq_edge (reps : List Replacement) (sel : List SelRange)
    (acc : CursorPosType) (h : acc ≠ .within) :
    scanRanges reps sel acc = .edge ↔
      ((¬ ∃ r ∈ sel, ∃ s ∈ reps, candPos r s = .within) ∧
        (acc = .edge ∨ ∃ r ∈ sel, ∃ s ∈ reps, candPos r s = .edge)) := by
  induction sel generalizing acc with
  | nil => simp [scanRanges]
  | cons r rest ih =>
    simp only [scanRanges]
    cases hsr : scanReps r reps acc with
    | within =>
      refine iff_of_false (by simp) ?_
      rintro ⟨hno, -⟩
      exact hno ⟨r, List.mem_cons_self r rest,
        (scanReps_eq_within r reps acc h).mp hsr⟩
    | edge =>
      have hr := (scanReps_eq_edge r reps acc h).mp hsr
      rw [ih .edge (by simp)]
      simp only [List.mem_cons]
      constructor
      · rintro ⟨hno, -⟩
        refine ⟨?_, ?_⟩
        · rintro ⟨x, hx | hx, hw⟩
          · rw [hx] at hw; exact hr.1 hw
          · exact hno ⟨x, hx, hw⟩
        · rcases hr.2 with hacc | ⟨x, hx, hw⟩
          · exact Or.inl hacc
          · exact Or.inr ⟨r, Or.inl rfl, ⟨x, hx, hw⟩⟩
      · rintro ⟨hno, -⟩
        refine ⟨fun ⟨x, hx, hw⟩ => hno ⟨x, Or.inr hx, hw⟩, Or.inl trivial⟩
    | apart =>
      have hrw : ¬ ∃ s ∈ reps, candPos r s = .within := by
        intro hw
        rw [← scanReps_eq_within r reps acc h] at hw
        rw [hsr] at hw; cases hw
      have hre : ¬ (acc = .edge ∨ ∃ s ∈ reps, candPos r s = .edge) := by
        intro hx
        have := (scanReps_eq_edge r reps acc h).mpr ⟨hrw, hx⟩
        rw [hsr] at this; cases this
      rw [ih .apart (by simp)]
      simp only [List.mem_cons]
      constructor
      · rintro ⟨hno, hacc⟩
        refine ⟨?_, ?_⟩
        · rintro ⟨x, hx | hx, hw⟩
          · rw [hx] at hw; exact hrw hw
          · exact hno ⟨x, hx, hw⟩
        · rcases hacc with hacc | ⟨x, hx, hw⟩
          · cases hacc
          · exact Or.inr ⟨x, Or.inr hx, hw⟩
      · rintro ⟨hno, hacc⟩
        refine ⟨fun ⟨x, hx, hw⟩ => hno ⟨x, Or.inr hx, hw⟩, ?_⟩
        rcases hacc with hacc | ⟨x, hx | hx, hw⟩
        · exact absurd (Or.inl hacc) hre
        · rw [hx] at hw
          exact absurd (Or.inr hw) hre
        · exact Or.inr ⟨x, hx, hw⟩

lemma determineCursorPosType_eq_within (sel : List SelRange) (spec : ConcealSpec) :
    determineCursorPosType sel spec = .within ↔
      ∃ r ∈ sel, ∃ s ∈ spec.replacements, candPos r s = .within :=
  scanRanges_eq_within _ _ .apart (by simp)

lemma determineCursorPosType_eq_edge (sel : List SelRange) (spec : ConcealSpec) :
    determineCursorPosType sel spec = .edge ↔
      ((¬ ∃ r ∈ sel, ∃ s ∈ spec.replacements, candPos r s = .within) ∧
        ∃ r ∈ sel, ∃ s ∈ spec.replacements, candPos r s = .edge) := by
  rw [determineCursorPosType, scanRanges_eq_edge _ _ .apart (by simp)]
  simp

lemma determineCursorPosType_eq_apart (sel : List SelRange) (spec : ConcealSpec) :
    determineCursorPosType sel spec = .apart ↔
      ∀ r ∈ sel, ∀ s ∈ spec.replacements, candPos r s = .apart := by
  constructor
  · intro h r hr s hs
    have hnw : ¬ ∃ r ∈ sel, ∃ s ∈ spec.replacements, candPos r s = .within := by
      intro hx
      rw [← determineCursorPosType_eq_within] at hx
      rw [h] at hx; cases hx
    have hne : ¬ ∃ r ∈ sel, ∃ s ∈ spec.replacements, candPos r s = .edge := by
      intro hx
      have := (determineCursorPosType_eq_edge sel spec).mpr ⟨hnw, hx⟩
      rw [h] at this; cases this
    cases hc : candPos r s with
    | within => exact absurd ⟨r, hr, s, hs, hc⟩ hnw
    | edge => exact absurd ⟨r, hr, s, hs, hc⟩ hne
    | apart => rfl
  · intro hall
    cases hd : determineCursorPosType sel spec with
    | within =>
      obtain ⟨r, hr, s, hs, hc⟩ := (determineCursorPosType_eq_within sel spec).mp hd
      rw [hall r hr s hs] at hc; cases hc
    | edge =>
      obtain ⟨-, r, hr, s, hs, hc⟩ := (determineCursorPosType_eq_edge sel spec).mp hd
      rw [hall r hr s hs] at hc; cases hc
    | apart => rfl

/-! ## Claims about the decision table (C1, C3) -/

/-- C1: with the mouse up, `determineAction` realizes the decision table for
all nine combinations of a previous classification (`apart`, `edge`,
`within`) and a current classification — a new `apart` yields `conceal` and a
new `within` yields `reveal` whatever the old state was, while a new `edge`
yields `delay` from old `apart` or `edge` and `reveal` from old `within`;
and whenever the mouse is down, the action is `conceal` regardless of both
classifications (including an absent old one). -/
theorem claim_C1_decision_table :
    (∀ old : CursorPosType, determineAction (some old) .apart false = .conceal) ∧
    (∀ old : CursorPosType, determineAction (some old) .within false = .reveal) ∧
    determineAction (some .apart) .edge false = .delay ∧
    determineAction (some .edge) .edge false = .delay ∧
    determineAction (some .within) .edge false = .reveal ∧
    (∀ (old : Option CursorPosType) (newC : CursorPosType),
      determineAction old newC true = .conceal) := by
  decide

/-- C3 counterexample: for a candidate with no identity match in the previous
state (old classification absent) and a new classification of `edge`, the
claimed table row says the action is `delay`, but `determineAction` returns
`reveal` (as the table in the source's own comment documents for its `N/A`
row). -/
theorem claim_C3_counterexample :
    determineAction none .edge false = .reveal ∧
      ConcealAction.reveal ≠ ConcealAction.delay := by
  decide

/-- C3 (amended): for a candidate with no identity match in the previous
state, with the mouse up, the action is `conceal` when the new classification
is `apart`, `reveal` when it is `edge`, and `reveal` when it is `within`. -/
theorem claim_C3_none_row :
    determineAction none .apart false = .conceal ∧
    determineAction none .edge false = .reveal ∧
    determineAction none .within false = .reveal := by
  decide

/-! ## Claims about the cursor classifier (C2, C10) -/

/-- C2 counterexample: for the zero-width selection range at position 1 and a
single replacement spanning `[0, 2)`, the classifier returns `within`, yet no
selection range and member replacement have a non-empty overlap interval
(`from < to`), and no overlap is a touching point coinciding with a boundary
of the replacement — so the claimed rule would classify this input `apart`. -/
theorem claim_C2_counterexample :
    determineCursorPosType [⟨1, 1⟩] (.single ⟨0, 2, "x", none, none⟩) = .within ∧
    (∀ r ∈ [SelRange.mk 1 1],
      ∀ s ∈ (ConcealSpec.single ⟨0, 2, "x", none, none⟩).replacements,
        ¬ overlapFrom r s < overlapTo r s) ∧
    (∀ r ∈ [SelRange.mk 1 1],
      ∀ s ∈ (ConcealSpec.single ⟨0, 2, "x", none, none⟩).replacements,
        ¬ (overlapFrom r s = overlapTo r s ∧
            (overlapFrom r s = s.start ∨ overlapFrom r s = s.end'))) := by
  decide

/-- C2 (amended): the classifier returns `within` exactly when some selection
range and member replacement overlap in a non-empty interval or touch in a
single point that does not coincide with a boundary of the replacement; it
returns `edge` when no such case holds and some overlap is a single touching
point coinciding with a boundary of the replacement; otherwise (every overlap
interval is empty and degenerate) it returns `apart` — the result over all
ranges and members takes priority `within` over `edge` over `apart`. -/
theorem claim_C2_classifier_characterization (sel : List SelRange) (spec : ConcealSpec) :
    (determineCursorPosType sel spec = .within ↔
      ∃ r ∈ sel, ∃ s ∈ spec.replacements,
        overlapFrom r s < overlapTo r s ∨
          (overlapFrom r s = overlapTo r s ∧
            overlapFrom r s ≠ s.start ∧ overlapFrom r s ≠ s.end')) ∧
    (determineCursorPosType sel spec = .edge ↔
      ((¬ ∃ r ∈ sel, ∃ s ∈ spec.replacements,
          overlapFrom r s < overlapTo r s ∨
            (overlapFrom r s = overlapTo r s ∧
              overlapFrom r s ≠ s.start ∧ overlapFrom r s ≠ s.end')) ∧
        ∃ r ∈ sel, ∃ s ∈ spec.replacements,
          overlapFrom r s = overlapTo r s ∧
            (overlapFrom r s = s.start ∨ overlapFrom r s = s.end'))) ∧
    (determineCursorPosType sel spec = .apart ↔
      ∀ r ∈ sel, ∀ s ∈ spec.replacements, overlapTo r s < overlapFrom r s) := by
  refine ⟨?_, ?_, ?_⟩
  · rw [determineCursorPosType_eq_within]
    simp only [candPos_eq_within]
  · rw [determineCursorPosType_eq_edge]
    simp only [candPos_eq_within, candPos_eq_edge]
  · rw [determineCursorPosType_eq_apart]
    simp only [candPos_eq_apart]

/-- C10: a zero-width selection range (a cursor) whose position lies strictly
between a member replacement's start and end makes the classifier return
`within` for that spec, although the computed overlap interval is empty: the
within branch accepts a degenerate overlap whenever its touching point is not
a boundary of the replacement. -/
theorem claim_C10_cursor_strictly_inside (sel : List SelRange) (spec : ConcealSpec)
    (r : SelRange) (s : Replacement) (hr : r ∈ sel) (hs : s ∈ spec.replacements)
    (hz : r.from' = r.to') (h1 : s.start < r.from') (h2 : r.from' < s.end') :
    determineCursorPosType sel spec = .within := by
  rw [determineCursorPosType_eq_within]
  refine ⟨r, hr, s, hs, ?_⟩
  rw [candPos_eq_within]
  have hf : overlapFrom r s = r.from' := Nat.max_eq_left h1.le
  have ht : overlapTo r s = r.from' := by
    unfold overlapTo
    rw [← hz]
    exact Nat.min_eq_left h2.le
  right
  refine ⟨hf.trans ht.symm, ?_, ?_⟩
  · rw [hf]; omega
  · rw [hf]; omega

/-- Witness for C10: the concrete cursor at position 1 inside the single
replacement spanning `[0, 2)`. -/
theorem claim_C10_witness :
    (SelRange.mk 1 1) ∈ [SelRange.mk 1 1] ∧
    (Replacement.mk 0 2 "x" none none) ∈
      (ConcealSpec.single ⟨0, 2, "x", none, none⟩).replacements ∧
    (SelRange.mk 1 1).from' = (SelRange.mk 1 1).to' ∧
    (Replacement.mk 0 2 "x" none none).start < (SelRange.mk 1 1).from' ∧
    (SelRange.mk 1 1).from' < (Replacement.mk 0 2 "x" none none).end' ∧
    determineCursorPosType [⟨1, 1⟩] (.single ⟨0, 2, "x", none, none⟩) = .within :=
  ⟨by decide, by decide, rfl, by decide, by decide,
    claim_C10_cursor_strictly_inside [⟨1, 1⟩] (.single ⟨0, 2, "x", none, none⟩)
      ⟨1, 1⟩ ⟨0, 2, "x", none, none⟩ (by decide) (by decide) rfl
      (by decide) (by decide)⟩

/-! ## Identity matching (C5) -/

lemma atSamePosAfter_single_single (u : Changes) (a b : Replacement) :
    atSamePosAfter u (.single a) (.single b) = true ↔ mappedEq u a b := by
  simp [atSamePosAfter, mappedEq]

lemma isFlat_group_mem {l : List ConcealSpec}
    (h : (ConcealSpec.group l).isFlat = true) :
    ∀ c ∈ l, ∃ a, c = ConcealSpec.single a := by
  intro c hc
  rw [ConcealSpec.isFlat, List.all_eq_true] at h
  have hx := h c hc
  cases c with
  | single a => exact ⟨a, rfl⟩
  | group m => cases hx

lemma atSamePosAfterList_flat_iff (u : Changes) :
    ∀ (lo ln : List ConcealSpec),
      (∀ c ∈ lo, ∃ a, c = ConcealSpec.single a) →
      (∀ c ∈ ln, ∃ a, c = ConcealSpec.single a) →
      (atSamePosAfterList u lo ln = true ↔
        List.Forall₂ (mappedEq u)
          (ConcealSpec.replacements.go lo) (ConcealSpec.replacements.go ln))
  | [], [], _, _ => by simp [atSamePosAfterList, ConcealSpec.replacements.go]
  | [], n :: ns, _, hn => by
    obtain ⟨b, rfl⟩ := hn n (List.mem_cons_self n ns)
    simp [atSamePosAfterList, ConcealSpec.replacements.go, ConcealSpec.replacements]
  | o :: os, [], ho, _ => by
    obtain ⟨a, rfl⟩ := ho o (List.mem_cons_self o os)
    simp [atSamePosAfterList, ConcealSpec.replacements.go, ConcealSpec.replacements]
  | o :: os, n :: ns, ho, hn => by
    obtain ⟨a, rfl⟩ := ho o (List.mem_cons_self o os)
    obtain ⟨b, rfl⟩ := hn n (List.mem_cons_self n ns)
    have ih := atSamePosAfterList_flat_iff u os ns
      (fun c hc => ho c (List.mem_cons_of_mem _ hc))
      (fun c hc => hn c (List.mem_cons_of_mem _ hc))
    simp only [atSamePosAfterList, ConcealSpec.replacements.go,
      ConcealSpec.replacements, List.singleton_append, Bool.and_eq_true,
      List.forall₂_cons, atSamePosAfter_single_single u a b]
    rw [ih]

/-- C5: for an update's position translation, a flat old spec and a flat new
spec are matched as the same logical concealment by `atSamePosAfter` exactly
when they have the same group shape (both single, or both groups of equal
length) and each corresponding member replacement has its old start mapped
with rightward bias equal to the new start and its old end mapped with
leftward bias equal to the new end. -/
theorem claim_C5_identity_matching (u : Changes) (o n : ConcealSpec)
    (ho : o.isFlat = true) (hn : n.isFlat = true) :
    atSamePosAfter u o n = true ↔
      (sameShapeFlat o n ∧
        List.Forall₂ (mappedEq u) o.replacements n.replacements) := by
  cases o with
  | single a =>
    cases n with
    | single b =>
      rw [atSamePosAfter_single_single]
      constructor
      · intro h
        exact ⟨Or.inl ⟨a, b, rfl, rfl⟩, by simpa [ConcealSpec.replacements] using h⟩
      · rintro ⟨-, h⟩
        simpa [ConcealSpec.replacements] using h
    | group ln =>
      refine iff_of_false (by simp [atSamePosAfter]) ?_
      rintro ⟨⟨a', b', -, h2⟩ | ⟨lo', ln', h1, -, -⟩, -⟩
      · cases h2
      · cases h1
  | group lo =>
    cases n with
    | single b =>
      refine iff_of_false (by simp [atSamePosAfter]) ?_
      rintro ⟨⟨a', b', h1, -⟩ | ⟨lo', ln', -, h2, -⟩, -⟩
      · cases h1
      · cases h2
    | group ln =>
      have hlist := atSamePosAfterList_flat_iff u lo ln
        (isFlat_group_mem ho) (isFlat_group_mem hn)
      have hshape : sameShapeFlat (.group lo) (.group ln) ↔ lo.length = ln.length := by
        constructor
        · rintro (⟨a', b', h1, -⟩ | ⟨lo', ln', h1, h2, h3⟩)
          · cases h1
          · cases h1; cases h2; exact h3
        · intro h
          exact Or.inr ⟨lo, ln, rfl, rfl, h⟩
      simp only [atSamePosAfter, Bool.and_eq_true, beq_iff_eq]
      rw [hlist, hshape]
      show _ ∧ _ ↔ _ ∧ List.Forall₂ _ (ConcealSpec.replacements.go lo)
        (ConcealSpec.replacements.go ln)
      tauto

/-- Witness for C5: a flat one-member group matched against a single
replacement under the identity position translation. -/
theorem claim_C5_witness :
    (ConcealSpec.group [.single ⟨0, 1, "x", none, none⟩]).isFlat = true ∧
    (ConcealSpec.single ⟨2, 3, "y", none, none⟩).isFlat = true ∧
    (atSamePosAfter ⟨fun p _ => p⟩ (ConcealSpec.group [.single ⟨0, 1, "x", none, none⟩])
        (ConcealSpec.single ⟨2, 3, "y", none, none⟩) = true ↔
      (sameShapeFlat (ConcealSpec.group [.single ⟨0, 1, "x", none, none⟩])
          (ConcealSpec.single ⟨2, 3, "y", none, none⟩) ∧
        List.Forall₂ (mappedEq ⟨fun p _ => p⟩)
          (ConcealSpec.group [.single ⟨0, 1, "x", none, none⟩]).replacements
          (ConcealSpec.single ⟨2, 3, "y", none, none⟩).replacements)) :=
  ⟨rfl, rfl, claim_C5_identity_matching ⟨fun p _ => p⟩ _ _ rfl rfl⟩

/-! ## Timer lifecycle (C4) -/

lemma stepReconcile_pos (w : World) (u : Changes) (sel : List SelRange) (m : Bool)
    (specs : List ConcealSpec)
    (h : (delayedIndices 0 ((reconResults w u sel m specs).map Prod.snd)).isEmpty = true) :
    stepReconcile w u sel m specs =
      ⟨⟨(reconResults w u sel m specs).map Prod.fst, none⟩, cancelPending w, w.nextId⟩ := by
  simp only [stepReconcile]
  rw [if_pos h]

lemma stepReconcile_neg (w : World) (u : Changes) (sel : List SelRange) (m : Bool)
    (specs : List ConcealSpec)
    (h : ¬ (delayedIndices 0 ((reconResults w u sel m specs).map Prod.snd)).isEmpty = true) :
    stepReconcile w u sel m specs =
      ⟨⟨(reconResults w u sel m specs).map Prod.fst, some w.nextId⟩,
        cancelPending w ++
          [(w.nextId,
            ⟨(reconResults w u sel m specs).map Prod.fst,
              delayedIndices 0 ((reconResults w u sel m specs).map Prod.snd)⟩)],
        w.nextId + 1⟩ := by
  simp only [stepReconcile]
  rw [if_neg h]

lemma cancelPending_ne (w : World) (tid : Nat)
    (hrt : w.field.revealTimeout = some tid) :
    ∀ p ∈ cancelPending w, p.1 ≠ tid := by
  intro p hp
  simp only [cancelPending, hrt] at hp
  rcases List.mem_filter.mp hp with ⟨-, hne⟩
  simpa using hne

lemma reconcile_cancels (w : World) (u : Changes) (sel : List SelRange) (m : Bool)
    (specs : List ConcealSpec) (tid : Nat)
    (hrt : w.field.revealTimeout = some tid) (hlt : tid < w.nextId) :
    ∀ p ∈ (stepReconcile w u sel m specs).timers, p.1 ≠ tid := by
  intro p hp
  by_cases hD :
      (delayedIndices 0 ((reconResults w u sel m specs).map Prod.snd)).isEmpty = true
  · rw [stepReconcile_pos w u sel m specs hD] at hp
    exact cancelPending_ne w tid hrt p hp
  · rw [stepReconcile_neg w u sel m specs hD] at hp
    rcases List.mem_append.mp hp with h | h
    · exact cancelPending_ne w tid hrt p h
    · rcases List.mem_singleton.mp h with rfl
      simp only
      omega

lemma stepReconcile_revealTimeout_some (w : World) (u : Changes) (sel : List SelRange)
    (m : Bool) (specs : List ConcealSpec) (t : Nat)
    (h : (stepReconcile w u sel m specs).field.revealTimeout = some t) :
    t = w.nextId ∧ (stepReconcile w u sel m specs).nextId = w.nextId + 1 := by
  by_cases hD :
      (delayedIndices 0 ((reconResults w u sel m specs).map Prod.snd)).isEmpty = true
  · rw [stepReconcile_pos w u sel m specs hD] at h
    simp at h
  · rw [stepReconcile_neg w u sel m specs hD] at h
    simp only [Option.some.injEq] at h
    refine ⟨h.symm, ?_⟩
    rw [stepReconcile_neg w u sel m specs hD]

lemma fireDisable_get? (delayed : List Nat) :
    ∀ (k i : Nat) (cs : List Concealment),
      (fireDisable delayed k cs).get? i =
        (cs.get? i).map fun c =>
          if k + i ∈ delayed then { c with enable := false } else c
  | _, _, [] => by simp [fireDisable]
  | k, 0, c :: rest => by simp [fireDisable]
  | k, i + 1, c :: rest => by
    simp only [fireDisable, List.get?_cons_succ]
    rw [fireDisable_get? delayed (k + 1) i rest]
    have hk : k + 1 + i = k + (i + 1) := by omega
    rw [hk]

/-- C4: the reconciliation step and the timer callbacks interact as a
single-flight delayed reveal.  In order of the conjuncts: (1) a
reconciliation leaves no timer with the handle it found pending in the old
state — the pending timer is cancelled before the new state is installed;
(2) the new state records a timer exactly when some newly computed candidate
was classified `delay`; (3) a live timer that fires disables exactly the
candidate set captured when it was scheduled — every concealment keeps its
data, with `enable` forced to `false` precisely at the captured delayed
indices; (4) after a second reconciliation, firing the first
reconciliation's timer handle is a no-op: its effect never applies. -/
theorem claim_C4_timer_lifecycle :
    (∀ (w : World) (u : Changes) (sel : List SelRange) (m : Bool)
        (specs : List ConcealSpec) (tid : Nat),
      worldInv w = true → w.field.revealTimeout = some tid →
        ∀ p ∈ (stepReconcile w u sel m specs).timers, p.1 ≠ tid) ∧
    (∀ (w : World) (u : Changes) (sel : List SelRange) (m : Bool)
        (specs : List ConcealSpec),
      (stepReconcile w u sel m specs).field.revealTimeout ≠ none ↔
        delayedIndices 0 ((reconResults w u sel m specs).map Prod.snd) ≠ []) ∧
    (∀ (w : World) (tid : Nat) (pr : Nat × Timer),
      w.timers.find? (fun p => p.1 == tid) = some pr →
        ∀ i, (stepFire w tid).field.concealments.get? i =
          (pr.2.concealments.get? i).map fun c =>
            if i ∈ pr.2.delayed then { c with enable := false } else c) ∧
    (∀ (w0 : World) (u1 u2 : Changes) (sel1 sel2 : List SelRange) (m1 m2 : Bool)
        (specs1 specs2 : List ConcealSpec) (t1 : Nat),
      (stepReconcile w0 u1 sel1 m1 specs1).field.revealTimeout = some t1 →
        stepFire (stepReconcile (stepReconcile w0 u1 sel1 m1 specs1) u2 sel2 m2 specs2) t1 =
          stepReconcile (stepReconcile w0 u1 sel1 m1 specs1) u2 sel2 m2 specs2) := by
  refine ⟨?_, ?_, ?_, ?_⟩
  · intro w u sel m specs tid hInv hrt
    have hlt : tid < w.nextId := by
      rw [worldInv, Bool.and_eq_true] at hInv
      have h2 := hInv.2
      rw [hrt] at h2
      simpa using h2
    exact reconcile_cancels w u sel m specs tid hrt hlt
  · intro w u sel m specs
    by_cases hD :
        (delayedIndices 0 ((reconResults w u sel m specs).map Prod.snd)).isEmpty = true
    · rw [stepReconcile_pos w u sel m specs hD]
      rw [List.isEmpty_iff] at hD
      simp [hD]
    · rw [stepReconcile_neg w u sel m specs hD]
      rw [List.isEmpty_iff] at hD
      simp [hD]
  · intro w tid pr hfind i
    simp only [stepFire, hfind]
    rw [fireDisable_get? pr.2.delayed 0 i pr.2.concealments]
    simp
  · intro w0 u1 u2 sel1 sel2 m1 m2 specs1 specs2 t1 h1
    obtain ⟨ht1, hnext⟩ := stepReconcile_revealTimeout_some w0 u1 sel1 m1 specs1 t1 h1
    have hcancel := reconcile_cancels (stepReconcile w0 u1 sel1 m1 specs1) u2 sel2 m2
      specs2 t1 h1 (by omega)
    have hnone :
        (stepReconcile (stepReconcile w0 u1 sel1 m1 specs1) u2 sel2 m2 specs2).timers.find?
          (fun p => p.1 == t1) = none := by
      rw [List.find?_eq_none]
      intro p hp
      simpa using hcancel p hp
    simp [stepFire, hnone]

/-- Witness for C4: the concrete two-reconciliation scenario `w0ex`, `w1ex`,
`w2ex` with a `delay`-classified candidate — timer 0 is installed by the
first step, cancelled by the second, firing handle 1 disables exactly the
captured candidate, and firing the stale handle 0 does nothing. -/
theorem claim_C4_witness :
    worldInv w1ex = true ∧
    w1ex.field.revealTimeout = some 0 ∧
    ((1, timer1ex) ∈ w2ex.timers → (1, timer1ex).1 ≠ 0) ∧
    w2ex.timers.find? (fun p => p.1 == 1) = some (1, timer1ex) ∧
    ((stepFire w2ex 1).field.concealments.get? 0 =
      (timer1ex.concealments.get? 0).map fun c =>
        if 0 ∈ timer1ex.delayed then { c with enable := false } else c) ∧
    stepFire w2ex 0 = w2ex :=
  ⟨rfl, rfl,
    fun hmem => claim_C4_timer_lifecycle.1 w1ex uId [⟨0, 0⟩] false [spec0ex] 0
      rfl rfl (1, timer1ex) hmem,
    rfl,
    claim_C4_timer_lifecycle.2.2.1 w2ex 1 (1, timer1ex) rfl 0,
    claim_C4_timer_lifecycle.2.2.2 w0ex uId uId [⟨0, 0⟩] [⟨0, 0⟩] false false
      [spec0ex] [spec0ex] 0 rfl⟩

/-! ## Bracket-matching and scanning helper lemmas -/

lemma fmbGo_some_le (ob cb : List Char) :
    ∀ (l : List Char) (i : Nat) (b : Int) (j : Nat), fmbGo ob cb l i b = some j → i ≤ j
  | [], i, b, j => by simp [fmbGo]
  | c :: rest, i, b, j => by
    intro h
    rw [fmbGo] at h
    split at h
    · exact Nat.le_of_succ_le (fmbGo_some_le ob cb rest (i + 1) _ j h)
    · split at h
      · split at h
        · exact le_of_eq (Option.some_inj.mp h)
        · exact Nat.le_of_succ_le (fmbGo_some_le ob cb rest (i + 1) _ j h)
      · exact Nat.le_of_succ_le (fmbGo_some_le ob cb rest (i + 1) _ j h)

lemma fmbGo_step_open (l : List Char) (i : Nat) (b : Int) :
    fmbGo ['\x7b'] ['\x7d'] ('\x7b' :: l) i b = fmbGo ['\x7b'] ['\x7d'] l (i + 1) (b + 1) := by
  rw [fmbGo]
  simp [List.isPrefixOf]

lemma fmbGo_step_other (c : Char) (h1 : ('\x7b' == c) = false) (h2 : ('\x7d' == c) = false)
    (l : List Char) (i : Nat) (b : Int) :
    fmbGo ['\x7b'] ['\x7d'] (c :: l) i b = fmbGo ['\x7b'] ['\x7d'] l (i + 1) b := by
  rw [fmbGo]
  simp [List.isPrefixOf, h1, h2]

lemma fmb_unfold_frac (rest : List Char) (j : Nat) :
    fmbGo ['\x7b'] ['\x7d'] ("\\frac\x7b".data ++ rest) j 0 =
      fmbGo ['\x7b'] ['\x7d'] rest (j + 6) 1 := by
  show fmbGo ['\x7b'] ['\x7d'] ('\\' :: 'f' :: 'r' :: 'a' :: 'c' :: '\x7b' :: rest) j 0 = _
  rw [fmbGo_step_other '\\' (by decide) (by decide),
    fmbGo_step_other 'f' (by decide) (by decide),
    fmbGo_step_other 'r' (by decide) (by decide),
    fmbGo_step_other 'a' (by decide) (by decide),
    fmbGo_step_other 'c' (by decide) (by decide),
    fmbGo_step_open]
  norm_num

lemma fmb_unfold_braket (rest : List Char) (j : Nat) :
    fmbGo ['\x7b'] ['\x7d'] ("\\braket\x7b".data ++ rest) j 0 =
      fmbGo ['\x7b'] ['\x7d'] rest (j + 8) 1 := by
  show fmbGo ['\x7b'] ['\x7d'] ('\\' :: 'b' :: 'r' :: 'a' :: 'k' :: 'e' :: 't' :: '\x7b' :: rest) j 0 = _
  rw [fmbGo_step_other '\\' (by decide) (by decide),
    fmbGo_step_other 'b' (by decide) (by decide),
    fmbGo_step_other 'r' (by decide) (by decide),
    fmbGo_step_other 'a' (by decide) (by decide),
    fmbGo_step_other 'k' (by decide) (by decide),
    fmbGo_step_other 'e' (by decide) (by decide),
    fmbGo_step_other 't' (by decide) (by decide),
    fmbGo_step_open]
  norm_num

lemma fmb_unfold_bra (rest : List Char) (j : Nat) :
    fmbGo ['\x7b'] ['\x7d'] ("\\bra\x7b".data ++ rest) j 0 =
      fmbGo ['\x7b'] ['\x7d'] rest (j + 5) 1 := by
  show fmbGo ['\x7b'] ['\x7d'] ('\\' :: 'b' :: 'r' :: 'a' :: '\x7b' :: rest) j 0 = _
  rw [fmbGo_step_other '\\' (by decide) (by decide),
    fmbGo_step_other 'b' (by decide) (by decide),
    fmbGo_step_other 'r' (by decide) (by decide),
    fmbGo_step_other 'a' (by decide) (by decide),
    fmbGo_step_open]
  norm_num

lemma fmb_unfold_ket (rest : List Char) (j : Nat) :
    fmbGo ['\x7b'] ['\x7d'] ("\\ket\x7b".data ++ rest) j 0 =
      fmbGo ['\x7b'] ['\x7d'] rest (j + 5) 1 := by
  show fmbGo ['\x7b'] ['\x7d'] ('\\' :: 'k' :: 'e' :: 't' :: '\x7b' :: rest) j 0 = _
  rw [fmbGo_step_other '\\' (by decide) (by decide),
    fmbGo_step_other 'k' (by decide) (by decide),
    fmbGo_step_other 'e' (by decide) (by decide),
    fmbGo_step_other 't' (by decide) (by decide),
    fmbGo_step_open]
  norm_num

lemma fmb_unfold_set (rest : List Char) (j : Nat) :
    fmbGo ['\x7b'] ['\x7d'] ("\\set\x7b".data ++ rest) j 0 =
      fmbGo ['\x7b'] ['\x7d'] rest (j + 5) 1 := by
  show fmbGo ['\x7b'] ['\x7d'] ('\\' :: 's' :: 'e' :: 't' :: '\x7b' :: rest) j 0 = _
  rw [fmbGo_step_other '\\' (by decide) (by decide),
    fmbGo_step_other 's' (by decide) (by decide),
    fmbGo_step_other 'e' (by decide) (by decide),
    fmbGo_step_other 't' (by decide) (by decide),
    fmbGo_step_open]
  norm_num

lemma prefix_fmb_bound (eqn pat : List Char) (j k : Nat)
    (hpre : pat.isPrefixOf (eqn.drop j) = true)
    (hunfold : ∀ (rest : List Char),
      fmbGo ['\x7b'] ['\x7d'] (pat ++ rest) j 0 = fmbGo ['\x7b'] ['\x7d'] rest (j + k) 1) :
    ∀ ne, findMatchingBracket eqn j ['\x7b'] ['\x7d'] = some ne → j + k ≤ ne := by
  intro ne h
  obtain ⟨rest, hrest⟩ := List.isPrefixOf_iff_prefix.mp hpre
  rw [findMatchingBracket, ← hrest, hunfold rest] at h
  exact fmbGo_some_le _ _ _ _ _ _ h

lemma fmb_after_open (eqn : List Char) (p : Nat) (hc : eqn.get? p = some '\x7b') :
    ∀ de, findMatchingBracket eqn p ['\x7b'] ['\x7d'] = some de → p + 1 ≤ de := by
  intro de h
  obtain ⟨hlt, hget⟩ := List.get?_eq_some.mp hc
  have hdrop : eqn.drop p = '\x7b' :: eqn.drop (p + 1) := by
    rw [List.drop_eq_getElem_cons hlt]
    congr 1
  rw [findMatchingBracket, hdrop, fmbGo_step_open] at h
  exact fmbGo_some_le _ _ _ _ _ _ h

lemma matchAllLitGo_mem (pat eqn : List Char) :
    ∀ (fuel i j : Nat), j ∈ matchAllLitGo pat eqn fuel i →
      pat.isPrefixOf (eqn.drop j) = true := by
  intro fuel
  induction fuel with
  | zero => intro i j h; simp [matchAllLitGo] at h
  | succ fuel ih =>
    intro i j h
    rw [matchAllLitGo] at h
    split at h
    next hc =>
      rcases List.mem_cons.mp h with rfl | h2
      · exact hc
      · exact ih _ _ h2
    next =>
      split at h
      next => exact ih _ _ h
      next => simp at h

lemma getEndIncludingLimits_ge (eqn : List Char) (e : Nat) :
    e ≤ getEndIncludingLimits eqn e := by
  rw [getEndIncludingLimits]
  split <;> omega

lemma matchAllLit_mem (pat eqn : List Char) (j : Nat) (h : j ∈ matchAllLit pat eqn) :
    pat.isPrefixOf (eqn.drop j) = true :=
  matchAllLitGo_mem pat eqn _ 0 j h

/-! ## Shapes of the grouped matchers' specs -/

lemma fracSpecAt_some (eqn : List Char) (j : Nat) (spec : ConcealSpec)
    (h : fracSpecAt eqn j = some spec) :
    ∃ ne de, findMatchingBracket eqn j ['\x7b'] ['\x7d'] = some ne ∧
      eqn.get? (ne + 1) = some '\x7b' ∧
      findMatchingBracket eqn (ne + 1) ['\x7b'] ['\x7d'] = some de ∧
      spec = .group [
        .single ⟨j, j + 5, "", none, none⟩,
        .single ⟨j + 5, j + 5 + 1, "(", some "cm-bracket", none⟩,
        .single ⟨ne, ne + 1, ")", some "cm-bracket", none⟩,
        .single ⟨ne + 1, ne + 1, "/", some "cm-bracket", none⟩,
        .single ⟨ne + 1, ne + 1 + 1, "(", some "cm-bracket", none⟩,
        .single ⟨de, de + 1, ")", some "cm-bracket", none⟩] := by
  rw [fracSpecAt] at h
  split at h
  next => cases h
  next ne hne =>
    split at h
    next => cases h
    next hch =>
      split at h
      next => cases h
      next de hde =>
        refine ⟨ne, de, hne, not_ne_iff.mp hch, hde, (Option.some_inj.mp h).symm⟩

lemma fracSpecAt_ok (eqn : List Char) (j : Nat) (spec : ConcealSpec)
    (hb : ∀ ne, findMatchingBracket eqn j ['\x7b'] ['\x7d'] = some ne → j + 6 ≤ ne)
    (h : fracSpecAt eqn j = some spec) : okSpec spec := by
  obtain ⟨ne, de, hne, hch, hde, rfl⟩ := fracSpecAt_some eqn j spec h
  have h1 : j + 6 ≤ ne := hb ne hne
  have h2 : ne + 1 + 1 ≤ de := fmb_after_open eqn (ne + 1) hch de hde
  constructor
  · simp only [ConcealSpec.replacements, ConcealSpec.replacements.go,
      List.singleton_append, List.chain'_cons, List.chain'_singleton, and_true]
    omega
  · intro r hr
    simp only [ConcealSpec.replacements, ConcealSpec.replacements.go,
      List.singleton_append, List.mem_cons, List.not_mem_nil, or_false] at hr
    rcases hr with rfl | rfl | rfl | rfl | rfl | rfl <;> simp

lemma braKetSpecAt_some (eqn : List Char) (j len : Nat) (ty : String) (spec : ConcealSpec)
    (h : braKetSpecAt eqn j ty len = some spec) :
    ∃ ce, findMatchingBracket eqn j ['\x7b'] ['\x7d'] = some ce ∧
      spec = .group [
        .single ⟨j, j + len - 1, "", none, none⟩,
        .single ⟨j + len - 1, j + len - 1 + 1,
          (if ty = "ket" then "|" else "〈"), some "cm-bracket", none⟩,
        .single ⟨ce, ce + 1,
          (if ty = "bra" then "|" else "〉"), some "cm-bracket", none⟩] := by
  rw [braKetSpecAt] at h
  split at h
  next => cases h
  next ce hce =>
    exact ⟨ce, hce, (Option.some_inj.mp h).symm⟩

lemma braKetSpecAt_ok (eqn : List Char) (j len : Nat) (ty : String) (spec : ConcealSpec)
    (hlen : 1 ≤ len)
    (hb : ∀ ce, findMatchingBracket eqn j ['\x7b'] ['\x7d'] = some ce → j + len ≤ ce)
    (h : braKetSpecAt eqn j ty len = some spec) : okSpec spec := by
  obtain ⟨ce, hce, rfl⟩ := braKetSpecAt_some eqn j len ty spec h
  have h1 : j + len ≤ ce := hb ce hce
  constructor
  · simp only [ConcealSpec.replacements, ConcealSpec.replacements.go,
      List.singleton_append, List.chain'_cons, List.chain'_singleton, and_true]
    omega
  · intro r hr
    simp only [ConcealSpec.replacements, ConcealSpec.replacements.go,
      List.singleton_append, List.mem_cons, List.not_mem_nil, or_false] at hr
    rcases hr with rfl | rfl | rfl <;> simp
    omega

lemma setSpecAt_some (eqn : List Char) (j : Nat) (spec : ConcealSpec)
    (h : setSpecAt eqn j = some spec) :
    ∃ ce, findMatchingBracket eqn j ['\x7b'] ['\x7d'] = some ce ∧
      spec = .group [
        .single ⟨j, j + 4, "", none, none⟩,
        .single ⟨j + 4, j + 4 + 1, "\x7b", some "cm-bracket", none⟩,
        .single ⟨ce, ce + 1, "\x7d", some "cm-bracket", none⟩] := by
  rw [setSpecAt] at h
  split at h
  next => cases h
  next ce hce =>
    exact ⟨ce, hce, (Option.some_inj.mp h).symm⟩

lemma setSpecAt_ok (eqn : List Char) (j : Nat) (spec : ConcealSpec)
    (hb : ∀ ce, findMatchingBracket eqn j ['\x7b'] ['\x7d'] = some ce → j + 5 ≤ ce)
    (h : setSpecAt eqn j = some spec) : okSpec spec := by
  obtain ⟨ce, hce, rfl⟩ := setSpecAt_some eqn j spec h
  have h1 : j + 5 ≤ ce := hb ce hce
  constructor
  · simp only [ConcealSpec.replacements, ConcealSpec.replacements.go,
      List.singleton_append, List.chain'_cons, List.chain'_singleton, and_true]
    omega
  · intro r hr
    simp only [ConcealSpec.replacements, ConcealSpec.replacements.go,
      List.singleton_append, List.mem_cons, List.not_mem_nil, or_false] at hr
    rcases hr with rfl | rfl | rfl <;> simp

/-! ## Per-matcher facts -/

lemma concealFraction_ok (eqn : List Char) (spec : ConcealSpec)
    (h : spec ∈ concealFraction eqn) : okSpec spec := by
  rw [concealFraction] at h
  obtain ⟨j, hj, hspec⟩ := List.mem_filterMap.mp h
  exact fracSpecAt_ok eqn j spec
    (prefix_fmb_bound eqn _ j 6 (matchAllLit_mem _ eqn j hj)
      (fun rest => fmb_unfold_frac rest j)) hspec

lemma concealSet_ok (eqn : List Char) (spec : ConcealSpec)
    (h : spec ∈ concealSet eqn) : okSpec spec := by
  rw [concealSet] at h
  obtain ⟨j, hj, hspec⟩ := List.mem_filterMap.mp h
  exact setSpecAt_ok eqn j spec
    (prefix_fmb_bound eqn _ j 5 (matchAllLit_mem _ eqn j hj)
      (fun rest => fmb_unfold_set rest j)) hspec

lemma concealBraKetGo_ok (eqn : List Char) :
    ∀ (fuel i : Nat) (spec : ConcealSpec),
      spec ∈ concealBraKetGo eqn fuel i → okSpec spec := by
  intro fuel
  induction fuel with
  | zero => intro i spec h; simp [concealBraKetGo] at h
  | succ fuel ih =>
    intro i spec h
    rw [concealBraKetGo] at h
    split at h
    next hc =>
      rcases List.mem_append.mp h with h1 | h1
      · exact braKetSpecAt_ok eqn i 8 "braket" spec (by omega)
          (prefix_fmb_bound eqn _ i 8 hc (fun rest => fmb_unfold_braket rest i))
          (Option.mem_def.mp (Option.mem_toList.mp h1))
      · exact ih _ _ h1
    next =>
      split at h
      next hc =>
        rcases List.mem_append.mp h with h1 | h1
        · exact braKetSpecAt_ok eqn i 5 "bra" spec (by omega)
            (prefix_fmb_bound eqn _ i 5 hc (fun rest => fmb_unfold_bra rest i))
            (Option.mem_def.mp (Option.mem_toList.mp h1))
        · exact ih _ _ h1
      next =>
        split at h
        next hc =>
          rcases List.mem_append.mp h with h1 | h1
          · exact braKetSpecAt_ok eqn i 5 "ket" spec (by omega)
              (prefix_fmb_bound eqn _ i 5 hc (fun rest => fmb_unfold_ket rest i))
              (Option.mem_def.mp (Option.mem_toList.mp h1))
          · exact ih _ _ h1
        next =>
          split at h
          next => exact ih _ _ h
          next => simp at h

lemma concealBraKet_ok (eqn : List Char) (spec : ConcealSpec)
    (h : spec ∈ concealBraKet eqn) : okSpec spec :=
  concealBraKetGo_ok eqn _ 0 spec h

lemma concealSymbolsGo_ok (pfx : List Char) (symbols : List (String × String))
    (cls : Option String) (allow : Bool) (eqn : List Char) :
    ∀ (fuel i : Nat) (spec : ConcealSpec),
      spec ∈ concealSymbolsGo pfx symbols cls allow eqn fuel i → okSpec spec := by
  intro fuel
  induction fuel with
  | zero => intro i spec h; simp [concealSymbolsGo] at h
  | succ fuel ih =>
    intro i spec h
    rw [concealSymbolsGo] at h
    split at h
    next k v heq =>
      split at h
      · exact ih _ _ h
      · rcases List.mem_cons.mp h with rfl | h1
        · refine ⟨by simp [ConcealSpec.replacements, List.chain'_singleton], ?_⟩
          intro r hr
          simp only [ConcealSpec.replacements, List.mem_singleton] at hr
          subst hr
          have := getEndIncludingLimits_ge eqn (i + pfx.length + k.data.length)
          simp only
          omega
        · exact ih _ _ h1
    next =>
      split at h
      next => exact ih _ _ h
      next => simp at h

lemma concealOperatorsGo_ok (symbols : List String) (eqn : List Char) :
    ∀ (fuel i : Nat) (spec : ConcealSpec),
      spec ∈ concealOperatorsGo symbols eqn fuel i → okSpec spec := by
  intro fuel
  induction fuel with
  | zero => intro i spec h; simp [concealOperatorsGo] at h
  | succ fuel ih =>
    intro i spec h
    rw [concealOperatorsGo] at h
    split at h
    next s consumed heq =>
      rcases List.mem_cons.mp h with rfl | h1
      · refine ⟨by simp [ConcealSpec.replacements, List.chain'_singleton], ?_⟩
        intro r hr
        simp only [ConcealSpec.replacements, List.mem_singleton] at hr
        subst hr
        have := getEndIncludingLimits_ge eqn (i + 1 + s.data.length)
        simp only
        omega
      · exact ih _ _ h1
    next =>
      split at h
      next => exact ih _ _ h
      next => simp at h

lemma concealBraKetGo_shape (eqn : List Char) :
    ∀ (fuel i : Nat) (spec : ConcealSpec), spec ∈ concealBraKetGo eqn fuel i →
      ∃ reps, spec = ConcealSpec.group reps ∧ reps.length = 3 := by
  intro fuel
  induction fuel with
  | zero => intro i spec h; simp [concealBraKetGo] at h
  | succ fuel ih =>
    intro i spec h
    rw [concealBraKetGo] at h
    split at h
    next =>
      rcases List.mem_append.mp h with h1 | h1
      · obtain ⟨ce, -, rfl⟩ := braKetSpecAt_some eqn i 8 "braket" spec
          (Option.mem_def.mp (Option.mem_toList.mp h1))
        exact ⟨_, rfl, rfl⟩
      · exact ih _ _ h1
    next =>
      split at h
      next =>
        rcases List.mem_append.mp h with h1 | h1
        · obtain ⟨ce, -, rfl⟩ := braKetSpecAt_some eqn i 5 "bra" spec
            (Option.mem_def.mp (Option.mem_toList.mp h1))
          exact ⟨_, rfl, rfl⟩
        · exact ih _ _ h1
      next =>
        split at h
        next =>
          rcases List.mem_append.mp h with h1 | h1
          · obtain ⟨ce, -, rfl⟩ := braKetSpecAt_some eqn i 5 "ket" spec
              (Option.mem_def.mp (Option.mem_toList.mp h1))
            exact ⟨_, rfl, rfl⟩
          · exact ih _ _ h1
        next =>
          split at h
          next => exact ih _ _ h
          next => simp at h

lemma opMatchAt_some (symbols : List String) (eqn : List Char) (i : Nat)
    (s : String) (c : Bool) (h : opMatchAt symbols eqn i = some (s, c)) :
    s ∈ symbols := by
  rw [opMatchAt] at h
  split at h
  · obtain ⟨a, ha, hfa⟩ := List.exists_of_findSome?_eq_some h
    split at hfa
    · split at hfa
      · split at hfa
        · cases hfa
        · simp only [Option.some_inj, Prod.mk.injEq] at hfa
          exact hfa.1 ▸ ha
      · simp only [Option.some_inj, Prod.mk.injEq] at hfa
        exact hfa.1 ▸ ha
    · cases hfa
  · cases h

lemma symMatchAt_some (pfx : List Char) (symbols : List (String × String))
    (eqn : List Char) (i : Nat) (k v : String)
    (h : symMatchAt pfx symbols eqn i = some (k, v)) : (k, v) ∈ symbols := by
  rw [symMatchAt] at h
  split at h
  · obtain ⟨a, ha, hfa⟩ := List.exists_of_findSome?_eq_some h
    split at hfa
    · rw [Option.some_inj] at hfa
      exact hfa ▸ ha
    · cases hfa
  · cases h

lemma concealOperatorsGo_spec (symbols : List String) (eqn : List Char) :
    ∀ (fuel i : Nat) (spec : ConcealSpec),
      spec ∈ concealOperatorsGo symbols eqn fuel i →
        ∃ (s : String) (r : Replacement), s ∈ symbols ∧ spec = .single r ∧
          r.replacement = s ∧
          r.end' = getEndIncludingLimits eqn (r.start + 1 + s.data.length) := by
  intro fuel
  induction fuel with
  | zero => intro i spec h; simp [concealOperatorsGo] at h
  | succ fuel ih =>
    intro i spec h
    rw [concealOperatorsGo] at h
    split at h
    next s consumed heq =>
      rcases List.mem_cons.mp h with rfl | h1
      · exact ⟨s, _, opMatchAt_some symbols eqn i s consumed heq, rfl, rfl, rfl⟩
      · exact ih _ _ h1
    next =>
      split at h
      next => exact ih _ _ h
      next => simp at h

lemma concealSymbolsGo_spec (pfx : List Char) (symbols : List (String × String))
    (cls : Option String) (allow : Bool) (eqn : List Char) :
    ∀ (fuel i : Nat) (spec : ConcealSpec),
      spec ∈ concealSymbolsGo pfx symbols cls allow eqn fuel i →
        ∃ (kv : String × String) (r : Replacement), kv ∈ symbols ∧ spec = .single r ∧
          r.replacement = kv.2 ∧
          r.end' = getEndIncludingLimits eqn (r.start + pfx.length + kv.1.data.length) := by
  intro fuel
  induction fuel with
  | zero => intro i spec h; simp [concealSymbolsGo] at h
  | succ fuel ih =>
    intro i spec h
    rw [concealSymbolsGo] at h
    split at h
    next k v heq =>
      split at h
      · exact ih _ _ h
      · rcases List.mem_cons.mp h with rfl | h1
        · exact ⟨(k, v), _, symMatchAt_some pfx symbols eqn i k v heq, rfl, rfl, rfl⟩
        · exact ih _ _ h1
    next =>
      split at h
      next => exact ih _ _ h
      next => simp at h

/-! ## Claims about the scanner (C6, C7, C8, C9) -/

/-- C6: on the equation text `\frac{a}{b}` (numerator brace closed,
denominator brace opening immediately after with no gap) the fraction matcher
emits exactly one spec, whose members hide the `\frac` command (empty
replacement over positions 0 to 5), replace the numerator's braces by `(` and
`)`, insert a zero-width `/` (start = end = 8), and replace the denominator's
braces by `(` and `)`; rendering those replacements over the source yields
`(a)/(b)`.  On `\frac{a} {b}`, where the character after the numerator's
closing brace is not a brace, no spec is emitted. -/
theorem claim_C6_fraction_scenario :
    concealFraction "\\frac\x7ba\x7d\x7bb\x7d".data =
      [.group [
        .single ⟨0, 5, "", none, none⟩,
        .single ⟨5, 6, "(", some "cm-bracket", none⟩,
        .single ⟨7, 8, ")", some "cm-bracket", none⟩,
        .single ⟨8, 8, "/", some "cm-bracket", none⟩,
        .single ⟨8, 9, "(", some "cm-bracket", none⟩,
        .single ⟨10, 11, ")", some "cm-bracket", none⟩]] ∧
    renderSpec "\\frac\x7ba\x7d\x7bb\x7d".data fracSpecEx = "(a)/(b)".data ∧
    concealFraction "\\frac\x7ba\x7d \x7bb\x7d".data = [] :=
  ⟨rfl, rfl, rfl⟩

/-- C7: every spec emitted by a scanner matcher has its member replacements
sorted by start and pairwise non-overlapping, each spanning a valid interval
(start at most end) — for the grouped matchers (fraction, bra-ket, set) and
for the single-replacement matchers (symbols, operators). -/
theorem claim_C7_members_sorted_nonoverlapping :
    (∀ (eqn : List Char) (spec : ConcealSpec), spec ∈ concealFraction eqn → okSpec spec) ∧
    (∀ (eqn : List Char) (spec : ConcealSpec), spec ∈ concealBraKet eqn → okSpec spec) ∧
    (∀ (eqn : List Char) (spec : ConcealSpec), spec ∈ concealSet eqn → okSpec spec) ∧
    (∀ (eqn pfx : List Char) (symbols : List (String × String)) (cls : Option String)
        (allow : Bool) (spec : ConcealSpec),
      spec ∈ concealSymbols eqn pfx symbols cls allow → okSpec spec) ∧
    (∀ (eqn : List Char) (symbols : List String) (spec : ConcealSpec),
      spec ∈ concealOperators eqn symbols → okSpec spec) :=
  ⟨concealFraction_ok, concealBraKet_ok, concealSet_ok,
    fun eqn pfx symbols cls allow spec h =>
      concealSymbolsGo_ok pfx symbols cls allow eqn _ 0 spec h,
    fun eqn symbols spec h => concealOperatorsGo_ok symbols eqn _ 0 spec h⟩

/-- Witness for C7: the spec emitted for `\frac{a}{b}` is well-formed. -/
theorem claim_C7_witness :
    fracSpecEx ∈ concealFraction "\\frac\x7ba\x7d\x7bb\x7d".data ∧ okSpec fracSpecEx :=
  ⟨List.mem_singleton.mpr rfl,
    claim_C7_members_sorted_nonoverlapping.1 "\\frac\x7ba\x7d\x7bb\x7d".data fracSpecEx
      (List.mem_singleton.mpr rfl)⟩

/-- C8: the scanner's matchers are total Lean functions, and a grouped
construct whose closing brace is missing is skipped whole: every emitted
fraction spec is a complete six-replacement group and every emitted bra-ket
or set spec a complete three-replacement group (never a partial one), and on
`\frac{a\frac{b}{c}` — whose outer fraction has no matching closing brace —
scanning drops the outer candidate yet still emits the inner fraction's
spec. -/
theorem claim_C8_skip_malformed :
    (∀ (eqn : List Char) (spec : ConcealSpec), spec ∈ concealFraction eqn →
      ∃ reps, spec = ConcealSpec.group reps ∧ reps.length = 6) ∧
    (∀ (eqn : List Char) (spec : ConcealSpec), spec ∈ concealBraKet eqn →
      ∃ reps, spec = ConcealSpec.group reps ∧ reps.length = 3) ∧
    (∀ (eqn : List Char) (spec : ConcealSpec), spec ∈ concealSet eqn →
      ∃ reps, spec = ConcealSpec.group reps ∧ reps.length = 3) ∧
    concealFraction "\\frac\x7ba\\frac\x7bb\x7d\x7bc\x7d".data = [fracInnerEx] := by
  refine ⟨?_, ?_, ?_, rfl⟩
  · intro eqn spec h
    rw [concealFraction] at h
    obtain ⟨j, -, hspec⟩ := List.mem_filterMap.mp h
    obtain ⟨ne, de, -, -, -, rfl⟩ := fracSpecAt_some eqn j spec hspec
    exact ⟨_, rfl, rfl⟩
  · intro eqn spec h
    exact concealBraKetGo_shape eqn _ 0 spec h
  · intro eqn spec h
    rw [concealSet] at h
    obtain ⟨j, -, hspec⟩ := List.mem_filterMap.mp h
    obtain ⟨ce, -, rfl⟩ := setSpecAt_some eqn j spec hspec
    exact ⟨_, rfl, rfl⟩

/-- Witness for C8: the inner fraction's spec emitted on the malformed text
is a complete six-replacement group. -/
theorem claim_C8_witness :
    fracInnerEx ∈ concealFraction "\\frac\x7ba\\frac\x7bb\x7d\x7bc\x7d".data ∧
    ∃ reps, fracInnerEx = ConcealSpec.group reps ∧ reps.length = 6 :=
  ⟨List.mem_singleton.mpr rfl,
    claim_C8_skip_malformed.1 "\\frac\x7ba\\frac\x7bb\x7d\x7bc\x7d".data fracInnerEx
      (List.mem_singleton.mpr rfl)⟩

/-- C9: `getEndIncludingLimits` extends a match's end by the length of the
literal `\limits` exactly when that literal follows immediately, and leaves
it unchanged otherwise; every replacement emitted by the operator matcher,
and by the table-driven symbol matcher, has its end computed by
`getEndIncludingLimits` applied to the end of its match. -/
theorem claim_C9_limits_extension :
    (∀ (eqn : List Char) (e : Nat),
      ("\\limits".data.isPrefixOf (eqn.drop e) = true →
        getEndIncludingLimits eqn e = e + "\\limits".data.length) ∧
      (¬ "\\limits".data.isPrefixOf (eqn.drop e) = true →
        getEndIncludingLimits eqn e = e)) ∧
    (∀ (symbols : List String) (eqn : List Char) (fuel i : Nat) (spec : ConcealSpec),
      spec ∈ concealOperatorsGo symbols eqn fuel i →
        ∃ (s : String) (r : Replacement), s ∈ symbols ∧ spec = .single r ∧
          r.replacement = s ∧
          r.end' = getEndIncludingLimits eqn (r.start + 1 + s.data.length)) ∧
    (∀ (pfx eqn : List Char) (symbols : List (String × String)) (cls : Option String)
        (allow : Bool) (fuel i : Nat) (spec : ConcealSpec),
      spec ∈ concealSymbolsGo pfx symbols cls allow eqn fuel i →
        ∃ (kv : String × String) (r : Replacement), kv ∈ symbols ∧ spec = .single r ∧
          r.replacement = kv.2 ∧
          r.end' = getEndIncludingLimits eqn (r.start + pfx.length + kv.1.data.length)) := by
  refine ⟨?_, ?_, ?_⟩
  · intro eqn e
    refine ⟨fun h => ?_, fun h => ?_⟩ <;> rw [getEndIncludingLimits] <;> simp [h]
  · intro symbols eqn fuel i spec h
    exact concealOperatorsGo_spec symbols eqn fuel i spec h
  · intro pfx eqn symbols cls allow fuel i spec h
    exact concealSymbolsGo_spec pfx symbols cls allow eqn fuel i spec h

/-- Witness for C9: on `\lim\limits_x` with symbol table `["lim"]`, the
emitted replacement's end swallows the trailing `\limits` (positions 4 to
11), and the extension equation holds at the concrete match end 4. -/
theorem claim_C9_witness :
    opSpecEx ∈ concealOperatorsGo ["lim"] "\\lim\\limits_x".data
      ("\\lim\\limits_x".data.length + 1) 0 ∧
    (∃ (s : String) (r : Replacement), s ∈ ["lim"] ∧ opSpecEx = .single r ∧
      r.replacement = s ∧
      r.end' = getEndIncludingLimits "\\lim\\limits_x".data (r.start + 1 + s.data.length)) ∧
    "\\limits".data.isPrefixOf ("\\lim\\limits_x".data.drop 4) = true ∧
    getEndIncludingLimits "\\lim\\limits_x".data 4 = 4 + "\\limits".data.length :=
  ⟨List.mem_singleton.mpr rfl,
    claim_C9_limits_extension.2.1 ["lim"] "\\lim\\limits_x".data
      ("\\lim\\limits_x".data.length + 1) 0 opSpecEx (List.mem_singleton.mpr rfl),
    by decide,
    (claim_C9_limits_extension.1 "\\lim\\limits_x".data 4).1 (by decide)⟩

end LatexSuite
